import Mathlib

/-
Verification of the go-fdo-server protocol-engine specification against the
repository sources.

Conventions of the shallow embedding:
  - Byte strings are `List Nat` (each element a byte value).
  - Go `uint16` / `int` arithmetic is mirrored with `Nat` / `Int`, with
    explicit mod-2^16 wrapping where the source can wrap.
  - Fallible operations return `Option` or `Except`.
  - Recursions that the source expresses as loops over streams are given
    explicit fuel so that every definition computes by kernel reduction;
    the fuel used by each wrapper is proved sufficient.
-/

namespace FdoSpec

/-
Section 1: canonical CBOR sizes and byte-level codec.

Modelled from the spec: the repository's `cbor` package is not under src/
(only its callers in `cose/header.go` and `serviceinfo/chunk.go` are).
Spec section 4.1 describes a deterministic, length-prefixed encoding with
variable-length integers, byte/text strings, definite-length arrays and
maps, tagged values, and a raw-bytes passthrough.  The definitions below
follow RFC 8949 definite-length encoding, which is what that section
describes: a header byte `32*major + info` where `info < 24` is an
immediate argument and `info = 24/25/26/27` announces a 1/2/4/8-byte
big-endian argument.
-/

/-- Number of bytes of header (major-type byte plus length argument) used by
the canonical CBOR encoding of an item whose argument (value or length) is
`n`. -/
def cborArgHdrLen (n : Nat) : Nat :=
  if n < 24 then 1
  else if n < 256 then 2
  else if n < 65536 then 3
  else if n < 4294967296 then 5
  else 9

/-- Length in bytes of the canonical CBOR encoding of a text or byte string
whose payload is the byte list `s` (header plus payload). -/
def encStrLen (s : List Nat) : Nat := cborArgHdrLen s.length + s.length

/-- Big-endian byte decomposition: `k` bytes of the value `n`, most
significant byte first. -/
def encBE : Nat → Nat → List Nat
  | 0, _ => []
  | k + 1, n => n / 256 ^ k :: encBE k (n % 256 ^ k)

/-- Read `k` big-endian bytes off the front of a byte list. -/
def decBE : Nat → List Nat → Option (Nat × List Nat)
  | 0, bs => some (0, bs)
  | _ + 1, [] => none
  | k + 1, b :: bs => (decBE k bs).map fun p => (b * 256 ^ k + p.1, p.2)

/-- Header bytes of a CBOR item of major type `major` with argument `n`,
in canonical (shortest) form. -/
def hdrBytes (major n : Nat) : List Nat :=
  if n < 24 then [32 * major + n]
  else if n < 256 then (32 * major + 24) :: encBE 1 n
  else if n < 65536 then (32 * major + 25) :: encBE 2 n
  else if n < 4294967296 then (32 * major + 26) :: encBE 4 n
  else (32 * major + 27) :: encBE 8 n

/-- Read the argument announced by the info bits of a CBOR header byte. -/
def readArg (info : Nat) (bs : List Nat) : Option (Nat × List Nat) :=
  if info < 24 then some (info, bs)
  else if info = 24 then decBE 1 bs
  else if info = 25 then decBE 2 bs
  else if info = 26 then decBE 4 bs
  else if info = 27 then decBE 8 bs
  else none

/-- Split off the first `n` bytes if the list is long enough. -/
def takeN (n : Nat) (bs : List Nat) : Option (List Nat × List Nat) :=
  if n ≤ bs.length then some (bs.take n, bs.drop n) else none

mutual

/-- A CBOR data item: unsigned and negative integers, byte and text
strings, definite-length arrays and maps, tags and simple values. -/
inductive CborVal : Type where
  | vuint (n : Nat)
  | vnint (n : Nat)
  | vbytes (bs : List Nat)
  | vtext (bs : List Nat)
  | varr (xs : CborSeq)
  | vmap (xs : CborPairs)
  | vtag (t : Nat) (v : CborVal)
  | vsimple (n : Nat)
  deriving DecidableEq

/-- A sequence of CBOR items (array elements). -/
inductive CborSeq : Type where
  | nil
  | cons (hd : CborVal) (tl : CborSeq)
  deriving DecidableEq

/-- A sequence of CBOR key-value pairs (map entries, in encoding order). -/
inductive CborPairs : Type where
  | nil
  | cons (k v : CborVal) (tl : CborPairs)
  deriving DecidableEq

end

mutual

def seqLen : CborSeq → Nat
  | .nil => 0
  | .cons _ tl => seqLen tl + 1

def pairsLen : CborPairs → Nat
  | .nil => 0
  | .cons _ _ tl => pairsLen tl + 1

end

mutual

/-- Canonical CBOR encoding of a data item. -/
def encVal : CborVal → List Nat
  | .vuint n => hdrBytes 0 n
  | .vnint n => hdrBytes 1 n
  | .vbytes bs => hdrBytes 2 bs.length ++ bs
  | .vtext bs => hdrBytes 3 bs.length ++ bs
  | .varr xs => hdrBytes 4 (seqLen xs) ++ encSeq xs
  | .vmap xs => hdrBytes 5 (pairsLen xs) ++ encPairs xs
  | .vtag t v => hdrBytes 6 t ++ encVal v
  | .vsimple n => hdrBytes 7 n

def encSeq : CborSeq → List Nat
  | .nil => []
  | .cons v tl => encVal v ++ encSeq tl

def encPairs : CborPairs → List Nat
  | .nil => []
  | .cons k v tl => encVal k ++ encVal v ++ encPairs tl

end

mutual

/-- Decode one CBOR item off the front of a byte list.  The first argument
is fuel; `decVal` only consumes fuel, so every call with enough fuel
(`needVal` below) succeeds on an encoded value. -/
def decVal : Nat → List Nat → Option (CborVal × List Nat)
  | 0, _ => none
  | _ + 1, [] => none
  | f + 1, b :: bs =>
    match readArg (b % 32) bs with
    | none => none
    | some (n, r) =>
      match b / 32 with
      | 0 => some (.vuint n, r)
      | 1 => some (.vnint n, r)
      | 2 => (takeN n r).map fun p => (.vbytes p.1, p.2)
      | 3 => (takeN n r).map fun p => (.vtext p.1, p.2)
      | 4 => (decSeq f n r).map fun p => (.varr p.1, p.2)
      | 5 => (decPairs f n r).map fun p => (.vmap p.1, p.2)
      | 6 => (decVal f r).map fun p => (.vtag n p.1, p.2)
      | 7 => some (.vsimple n, r)
      | _ => none

/-- Decode `n` consecutive CBOR items (array elements). -/
def decSeq : Nat → Nat → List Nat → Option (CborSeq × List Nat)
  | _, 0, bs => some (.nil, bs)
  | 0, _ + 1, _ => none
  | f + 1, n + 1, bs => do
    let (v, r) ← decVal f bs
    let (tl, r2) ← decSeq f n r
    some (.cons v tl, r2)

/-- Decode `n` consecutive CBOR key-value pairs (map entries). -/
def decPairs : Nat → Nat → List Nat → Option (CborPairs × List Nat)
  | _, 0, bs => some (.nil, bs)
  | 0, _ + 1, _ => none
  | f + 1, n + 1, bs => do
    let (k, r) ← decVal f bs
    let (v, r2) ← decVal f r
    let (tl, r3) ← decPairs f n r2
    some (.cons k v tl, r3)

end

mutual

/-- Fuel needed by `decVal` to decode the encoding of `v`. -/
def needVal : CborVal → Nat
  | .vuint _ => 1
  | .vnint _ => 1
  | .vbytes _ => 1
  | .vtext _ => 1
  | .varr xs => needSeq xs + 1
  | .vmap xs => needPairs xs + 1
  | .vtag _ v => needVal v + 1
  | .vsimple _ => 1

def needSeq : CborSeq → Nat
  | .nil => 0
  | .cons v tl => max (needVal v) (needSeq tl) + 1

def needPairs : CborPairs → Nat
  | .nil => 0
  | .cons k v tl => max (needVal k) (max (needVal v) (needPairs tl)) + 1

end

mutual

/-- Well-formedness for encoding: every integer argument and every length
fits the 64-bit CBOR argument space. -/
def wfVal : CborVal → Bool
  | .vuint n => n < 2 ^ 64
  | .vnint n => n < 2 ^ 64
  | .vbytes bs => bs.length < 2 ^ 64
  | .vtext bs => bs.length < 2 ^ 64
  | .varr xs => decide (seqLen xs < 2 ^ 64) && wfSeq xs
  | .vmap xs => decide (pairsLen xs < 2 ^ 64) && wfPairs xs
  | .vtag t v => decide (t < 2 ^ 64) && wfVal v
  | .vsimple n => n < 2 ^ 64

def wfSeq : CborSeq → Bool
  | .nil => true
  | .cons v tl => wfVal v && wfSeq tl

def wfPairs : CborPairs → Bool
  | .nil => true
  | .cons k v tl => wfVal k && wfVal v && wfPairs tl

end

/-
Section 2: COSE header flat marshalling (cose/header.go).

`Header` holds a protected and an unprotected `HeaderMap`; a `HeaderMap`
maps labels (int64 or text string) to arbitrary CBOR-marshalable values.
`FlatMarshalCBOR` writes the protected map as a CBOR byte string whose
content is the serialized map, or an empty byte string when the map is
empty (`emptyOrSerializedMap` = `cbor.Bstr[cbor.OmitEmpty[rawHeaderMap]]`),
followed by the unprotected map as a plain CBOR map (`rawHeaderMap`
marshals each value and splices the raw bytes).  `FlatUnmarshalCBOR`
reverses this, re-unmarshalling each raw value.  Go maps are modelled as
association lists in a fixed iteration order.
-/

/-- A COSE header label: an int64 or a text string (`cose.Label`). -/
inductive CLabel : Type where
  | lint (i : Int)
  | lstr (s : List Nat)
  deriving DecidableEq

/-- `HeaderMap` as an association list from labels to CBOR values. -/
def HeaderMap : Type := List (CLabel × CborVal)

/-- Encode a label as the corresponding CBOR map key. -/
def labelToCbor : CLabel → CborVal
  | .lint i => if 0 ≤ i then .vuint i.toNat else .vnint (-(i + 1)).toNat
  | .lstr s => .vtext s

/-- Read a CBOR map key back as a label. -/
def labelOfCbor : CborVal → Option CLabel
  | .vuint n => some (.lint n)
  | .vnint n => some (.lint (-(n + 1 : Int)))
  | .vtext s => some (.lstr s)
  | _ => none

/-- A well-formed label has an int64-representable integer or any string. -/
def wfLabel : CLabel → Bool
  | .lint i => decide (-(2 ^ 64 : Int) ≤ i) && decide (i < 2 ^ 64)
  | .lstr s => decide (s.length < 2 ^ 64)

/-- Well-formedness of a header map: every label and value encodable. -/
def wfHeaderMap (h : HeaderMap) : Bool :=
  decide (h.length < 2 ^ 64) && h.all fun p => wfLabel p.1 && wfVal p.2

/-- Turn a header map into CBOR map entries, marshalling each value
(`newRawHeaderMap` marshals every value; raw bytes splice back in as the
value's own encoding). -/
def hdrPairs : HeaderMap → CborPairs
  | [] => .nil
  | (l, v) :: t => .cons (labelToCbor l) v (hdrPairs t)

/-- Read decoded CBOR map entries back as a header map
(each raw value is re-unmarshalled; keys must be int or text). -/
def hdrOfPairs : CborPairs → Option HeaderMap
  | .nil => some []
  | .cons k v t => do
    let l ← labelOfCbor k
    let rest ← hdrOfPairs t
    some ((l, v) :: rest)

/-- `Header.FlatMarshalCBOR`: the protected map as a byte string (empty
when the map is empty, else containing the serialized map), then the
unprotected map as a plain map. -/
def flatMarshalHdr (prot unprot : HeaderMap) : List Nat :=
  encVal (.vbytes (match prot with
    | [] => []
    | _ => encVal (.vmap (hdrPairs prot)))) ++ encVal (.vmap (hdrPairs unprot))

/-- Decode the protected-header byte string: empty content means the
empty map, otherwise the content must be exactly one serialized map.
The fuel `2 * length + 2` always suffices (`needVal_le` below). -/
def decProtected (pv : CborVal) : Option HeaderMap :=
  match pv with
  | .vbytes [] => some []
  | .vbytes inner =>
    match decVal (2 * inner.length + 2) inner with
    | some (.vmap ps, []) => hdrOfPairs ps
    | _ => none
  | _ => none

/-- Decode the unprotected headers: a plain map. -/
def decUnprotected (uv : CborVal) : Option HeaderMap :=
  match uv with
  | .vmap ps => hdrOfPairs ps
  | _ => none

/-- `Header.FlatUnmarshalCBOR`: read a byte string holding the protected
map (empty means empty map; otherwise its content must be exactly one
serialized map), then a plain map for the unprotected headers.  Returns
the two maps and the unconsumed tail of the stream. -/
def flatUnmarshalHdr (bs : List Nat) : Option ((HeaderMap × HeaderMap) × List Nat) :=
  match decVal (2 * bs.length + 2) bs with
  | none => none
  | some (pv, r) =>
    match decProtected pv with
    | none => none
    | some prot =>
      match decVal (2 * r.length + 2) r with
      | none => none
      | some (uv, r2) =>
        match decUnprotected uv with
        | none => none
        | some unprot => some ((prot, unprot), r2)

/-
Section 3: ServiceInfo chunk pipes (serviceinfo/chunk.go).

A logical ServiceInfo is a key-value pair whose key is the text
"moduleName:messageName" and whose value is an opaque byte stream.  The
chunk-out pipe (`NewChunkOutPipe`) carries each logical KV as one internal
pipe holding the CBOR-encoded key followed by the value bytes;
`ChunkReader.ReadChunk(size)` parses the key (limited to `size - 7`
bytes, computed in uint16 arithmetic) and then slices the value into
frames whose payload is at most `size - maxOverhead`.  The chunk-in pipe
(`ChunkWriter` / `UnchunkReader`) starts a new logical KV whenever the
frame key differs from the previous frame's key and concatenates the
values of consecutive frames with equal keys.
-/

/-- A ServiceInfo key-value: `Key` is the raw UTF-8 bytes of the
"module:message" name, `Val` an opaque byte string. -/
structure SIKV : Type where
  key : List Nat
  val : List Nat
  deriving DecidableEq

/-- Subtraction in Go `uint16` arithmetic (wraps modulo 2^16). -/
def u16sub (a b : Nat) : Nat := (a + 65536 - b % 65536) % 65536

/-- The limit placed on the encoded key read by `ReadChunk`:
`io.LimitReader(r.r, int64(size-7))` with `size` a `uint16`. -/
def keyLimit (size : Nat) : Nat := u16sub size 7

/-- The overhead `ReadChunk` reserves before reading value bytes:
`1 + len(rkey) + 1`, plus one byte when the remaining budget is at least
24, plus one more when it is then still at least 256 (chunk.go lines
142-148, in Go `int` arithmetic). -/
def readChunkOverhead (size keyRawLen : Nat) : Nat :=
  let o1 := 1 + keyRawLen + 1
  let o2 := if (24 : Int) ≤ (size : Int) - (o1 : Int) then o1 + 1 else o1
  if (256 : Int) ≤ (size : Int) - (o2 : Int) then o2 + 1 else o2

/-- The value-byte budget of one `ReadChunk(size)` call: `none` models
`ErrSizeTooSmall` (`int(size) - maxOverhead <= 0`, chunk.go line 149). -/
def readChunkBudget (size keyRawLen : Nat) : Option Nat :=
  let o := readChunkOverhead size keyRawLen
  if (size : Int) - (o : Int) ≤ 0 then none else some (size - o)

/-- Split a value into consecutive chunks of at most `b` bytes: full
chunks of exactly `b` until fewer than `b` remain (`io.ReadFull` on the
per-KV pipe).  An empty value yields no chunk at all (`n == 0` makes
`ReadChunk` move on to the next logical KV).  Fuel-based so that it
computes; `v.length` fuel suffices when `b ≥ 1`. -/
def chunkSplitF : Nat → Nat → List Nat → List (List Nat)
  | 0, _, _ => []
  | _ + 1, _, [] => []
  | f + 1, b, v => v.take b :: chunkSplitF f b (v.drop b)

/-- Split a value into chunks of at most `b` bytes. -/
def chunkSplit (b : Nat) (v : List Nat) : List (List Nat) := chunkSplitF v.length b v

/-- The sequence of MTU frames `ReadChunk` emits for one logical KV, or
`none` when the reader fails on it: key unreadable within `size - 7`
bytes, or value budget exhausted (`ErrSizeTooSmall`).  Every frame
repeats the whole key; only the value is sliced. -/
def framesOfKV (size : Nat) (kv : SIKV) : Option (List SIKV) :=
  if encStrLen kv.key ≤ keyLimit size then
    match readChunkBudget size (encStrLen kv.key) with
    | none => none
    | some b => some ((chunkSplit b kv.val).map fun c => ⟨kv.key, c⟩)
  else none

/-- All frames the chunk-out pipe emits for a stream of logical KVs. -/
def chunkOutFrames (size : Nat) : List SIKV → Option (List SIKV)
  | [] => some []
  | kv :: w => do
    let fs ← framesOfKV size kv
    let rest ← chunkOutFrames size w
    some (fs ++ rest)

/-- `ChunkWriter.WriteChunk` then `UnchunkReader`: fold over the frames
carrying the currently open logical KV (key and accumulated value); a
frame whose key differs from the open key closes the current KV and opens
a new one (chunk.go lines 201-221).  The initial `prevKey` is the empty
string, modelled as `none`: FDO keys are nonempty "module:message"
names. -/
def chunkInGo : List SIKV → Option (List Nat × List Nat) → List SIKV
  | [], none => []
  | [], some (k, acc) => [⟨k, acc⟩]
  | f :: fs, none => chunkInGo fs (some (f.key, f.val))
  | f :: fs, some (k, acc) =>
    if f.key = k then chunkInGo fs (some (k, acc ++ f.val))
    else ⟨k, acc⟩ :: chunkInGo fs (some (f.key, f.val))

/-- Reassemble logical KVs from a stream of MTU frames. -/
def chunkIn (frames : List SIKV) : List SIKV := chunkInGo frames none

/-- Chunk-out at MTU `size` followed by chunk-in. -/
def chunkRoundTrip (size : Nat) (w : List SIKV) : Option (List SIKV) :=
  (chunkOutFrames size w).map chunkIn

/-- Encoded length of one frame as a ServiceInfo KV
`[key, val]`: array header (1 byte) + encoded key + encoded value byte
string. -/
def encFrameLen (kv : SIKV) : Nat :=
  1 + encStrLen kv.key + cborArgHdrLen kv.val.length + kv.val.length

/-- No two adjacent logical KVs share a key (what `ForceNewMessage`
exists to arrange when a producer wants to repeat a key). -/
def adjDistinct : List SIKV → Bool
  | [] => true
  | [_] => true
  | a :: b :: t => (decide (a.key ≠ b.key)) && adjDistinct (b :: t)

/-- The possible outcomes of one `ReadChunk(size)` call on a fresh
logical KV: an `ErrSizeTooSmall` return, the `n == 0` path of chunk.go
lines 160-165 (`io.ReadFull` hits EOF with nothing read, the reader
drops the pipe and recurses to the next logical KV — surfacing as
`io.EOF` when none follows), or a returned frame. -/
inductive ReadChunkOutcome : Type where
  | sizeTooSmall
  | nextKV
  | frame (kv : SIKV)
  deriving DecidableEq

/-- The first `ReadChunk(size)` call on a fresh logical KV:
`sizeTooSmall` models an error return (the key does not fit in
`size - 7` bytes, or the value budget is ≤ 0); an empty value makes
`io.ReadFull` return `n == 0` with EOF, so the reader skips to the next
logical KV without emitting a frame (`nextKV`); otherwise the frame
holds up to one budget's worth of the value. -/
def readChunkFirst (size : Nat) (kv : SIKV) : ReadChunkOutcome :=
  if encStrLen kv.key ≤ keyLimit size then
    match readChunkBudget size (encStrLen kv.key) with
    | none => .sizeTooSmall
    | some b =>
      match kv.val with
      | [] => .nextKV
      | _ => .frame ⟨kv.key, kv.val.take b⟩
  else .sizeTooSmall

/-
Section 4: the buffered pipe (serviceinfo/chunk.go, `bufPipe`).

`bufPipe` holds a `bytes.Buffer`, an error slot and a 1-slot signalling
channel.  `Write` locks the mutex, fails if the pipe is closed, performs a
non-blocking send on the channel and appends to the buffer — there is no
wait path.  `Read` returns buffered bytes when there are any.  The model
below is the sequential state machine of these operations.
-/

/-- State of a `bufPipe`: buffered bytes, the closed flag (`err != nil`)
and the occupancy of the 1-slot channel. -/
structure BufPipe : Type where
  buf : List Nat
  closed : Bool
  sig : Bool
  deriving DecidableEq

/-- `bufPipe.Write`: error if closed, otherwise non-blocking signal and
unconditional append of the whole input. -/
def bufPipeWrite (s : BufPipe) (p : List Nat) : BufPipe × Except Unit Nat :=
  if s.closed then (s, .error ())
  else ({ s with buf := s.buf ++ p, sig := true }, .ok p.length)

/-- One successful `bufPipe.Read` pass: when the buffer is nonempty, up to
`n` bytes are taken from its front. -/
def bufPipeRead (s : BufPipe) (n : Nat) : BufPipe × Option (List Nat) :=
  if s.buf.isEmpty then (s, none)
  else ({ s with buf := s.buf.drop n }, some (s.buf.take n))

/-- States of a `bufPipe` reachable from `bufferedPipe()` by any sequence
of writes, reads and a close. -/
inductive BufPipeReach : BufPipe → Prop where
  | init : BufPipeReach ⟨[], false, false⟩
  | wr (s : BufPipe) (p : List Nat) : BufPipeReach s → BufPipeReach (bufPipeWrite s p).1
  | rd (s : BufPipe) (n : Nat) : BufPipeReach s → BufPipeReach (bufPipeRead s n).1
  | cl (s : BufPipe) : BufPipeReach s → BufPipeReach { s with closed := true }

/-
Section 5: devmod module-list pagination (serviceinfo, `Devmod`).

`writeModuleMessages` paginates the module-name list into
`devmod:modules` chunks `[start, len, name...]`, growing each chunk until
the CBOR-encoded ServiceInfo `[[key, chunk]]` would exceed the MTU, then
backing the last name out and starting the next chunk at
`start + len`.  Module names are byte strings here.
-/

/-- The UTF-8 bytes of the ServiceInfo key "devmod:modules". -/
def devmodModulesKey : List Nat :=
  [100, 101, 118, 109, 111, 100, 58, 109, 111, 100, 117, 108, 101, 115]

/-- A `DevmodModulesChunk`: start index, count, and the module names. -/
structure DevmodModulesChunk : Type where
  start : Nat
  len : Nat
  modules : List (List Nat)
  deriving DecidableEq

/-- Encoded size of `[][]any{{key, chunk}}` as computed by the sizewriter:
outer 1-element array header + inner 2-element array header + encoded key
+ chunk array header + encoded start + encoded len + encoded names. -/
def devmodChunkMsgSize (start : Nat) (names : List (List Nat)) : Nat :=
  1 + 1 + encStrLen devmodModulesKey + cborArgHdrLen (2 + names.length) +
    cborArgHdrLen start + cborArgHdrLen names.length + (names.map encStrLen).sum

/-- The chunk-building loop of `writeModuleMessages` (header.go lines
380-413): add the next module to the open chunk; if the encoded
ServiceInfo still fits the MTU consume the module, otherwise back the
module out — failing when the chunk would be left empty ("MTU too small
to send devmod module name alone") — emit the chunk and open a fresh one
at `start + len`.  When no modules remain the open chunk is emitted.
Fuel-based; `2 * modules.length + 1` fuel suffices. -/
def writeModulesF : Nat → Nat → Nat → List (List Nat) → List (List Nat) →
    Option (List DevmodModulesChunk)
  | 0, _, _, _, _ => none
  | _ + 1, _, start, cur, [] => some [⟨start, cur.length, cur⟩]
  | f + 1, mtu, start, cur, m :: rest =>
    if devmodChunkMsgSize start (cur ++ [m]) ≤ mtu then
      writeModulesF f mtu start (cur ++ [m]) rest
    else if cur.length = 0 then
      none
    else
      (writeModulesF f mtu (start + cur.length) [] (m :: rest)).map
        fun cs => ⟨start, cur.length, cur⟩ :: cs

/-- `Devmod.writeModuleMessages` restricted to the `devmod:modules`
pagination: the chunks emitted for the given module list at the given
MTU, or `none` on the "MTU too small" error. -/
def writeModuleMessages (mtu : Nat) (modules : List (List Nat)) :
    Option (List DevmodModulesChunk) :=
  writeModulesF (2 * modules.length + 1) mtu 0 [] modules

/-- Each chunk's start index continues where the previous chunk ended:
the first chunk starts at `s`, every later one at the previous start plus
the previous len. -/
def startsFrom : Nat → List DevmodModulesChunk → Prop
  | _, [] => True
  | s, c :: cs => c.start = s ∧ startsFrom (s + c.len) cs

/-
Section 6: the kex cipher-suite registry (src/unnamed/part_002).
-/

/-- Cipher suite IDs (`kex.CipherSuiteID` constants). -/
def A128GcmCipher : Int := 1

def A192GcmCipher : Int := 2

def A256GcmCipher : Int := 3

/-- Deprecated, not implemented. -/
def AesCcm16_128_128Cipher : Int := 30

/-- Deprecated, not implemented. -/
def AesCcm16_128_256Cipher : Int := 31

def AesCcm64_128_128Cipher : Int := 32

def AesCcm64_128_256Cipher : Int := 33

def CoseAes128CbcCipher : Int := -17760703

def CoseAes128CtrCipher : Int := -17760704

def CoseAes256CbcCipher : Int := -17760705

def CoseAes256CtrCipher : Int := -17760706

/-
COSE algorithm identifiers.  Modelled from the spec: the `cose` package
is not under src/.  The GCM and HMAC identifiers are the COSE registry
values the spec's section 4.2/4.4 refer to; the CTR/CBC identifiers are
the library's own nonstandard codes — only their distinctness and
non-zeroness matter to the claims, and the Go zero value of
`cose.MacAlgorithm` is 0.
-/

def coseA128GCM : Int := 1

def coseA192GCM : Int := 2

def coseA256GCM : Int := 3

def coseA128CTR : Int := -65534

def coseA128CBC : Int := -65530

def coseA256CTR : Int := -65533

def coseA256CBC : Int := -65529

def coseHMac256 : Int := 5

def coseHMac384 : Int := 6

/-- The PRF hash of a cipher suite (`crypto.Hash`). -/
inductive PRFHashAlg : Type where
  | sha256
  | sha384
  deriving DecidableEq

/-- `kex.CipherSuite`: a COSE encryption algorithm, a COSE MAC algorithm
(zero when absent) and the key-derivation hash. -/
structure CipherSuite : Type where
  encryptAlg : Int
  macAlg : Int
  prfHash : PRFHashAlg
  deriving DecidableEq

/-- The cipher-suite registry as populated by the package `init` function
(part_002 lines 811-844), in registration order.  Suites whose literal
omits `MacAlg` get the Go zero value 0. -/
def ciphers : List (Int × CipherSuite) :=
  [(A128GcmCipher, ⟨coseA128GCM, 0, .sha256⟩),
   (A192GcmCipher, ⟨coseA192GCM, 0, .sha256⟩),
   (A256GcmCipher, ⟨coseA256GCM, 0, .sha256⟩),
   (CoseAes128CtrCipher, ⟨coseA128CTR, coseHMac256, .sha256⟩),
   (CoseAes128CbcCipher, ⟨coseA128CBC, coseHMac256, .sha256⟩),
   (CoseAes256CtrCipher, ⟨coseA256CTR, coseHMac384, .sha384⟩),
   (CoseAes256CbcCipher, ⟨coseA256CBC, coseHMac384, .sha384⟩)]

/-- Registry lookup used by `CipherSuiteID.Suite`; `none` models the
"cipher suite not registered" panic. -/
def suiteLookup (id : Int) : Option CipherSuite := List.lookup id ciphers

/-- The non-AE (encrypt-then-MAC) encryption algorithms: AES CTR/CBC. -/
def isNonAE (alg : Int) : Bool :=
  alg = coseA128CTR || alg = coseA128CBC || alg = coseA256CTR || alg = coseA256CBC

/-- `kex.CipherSuiteByName`: parse a suite name (upper-cased) to its ID. -/
def cipherSuiteByName (name : String) : Option Int :=
  if name.toUpper = "A128GCM" then some A128GcmCipher
  else if name.toUpper = "A192GCM" then some A192GcmCipher
  else if name.toUpper = "A256GCM" then some A256GcmCipher
  else if name.toUpper = "AES-CCM-64-128-128" then some AesCcm64_128_128Cipher
  else if name.toUpper = "AES-CCM-64-128-256" then some AesCcm64_128_256Cipher
  else if name.toUpper = "COSEAES128CBC" then some CoseAes128CbcCipher
  else if name.toUpper = "COSEAES128CTR" then some CoseAes128CtrCipher
  else if name.toUpper = "COSEAES256CBC" then some CoseAes256CbcCipher
  else if name.toUpper = "COSEAES256CTR" then some CoseAes256CtrCipher
  else none

/-
Section 7: the ownership-voucher engine (spec sections 3 and 4.5).

Modelled from the spec: the voucher data model, `validateChain`, `extend`
and `currentOwnerPK` live in the go-fdo library, which is not under src/;
only callers are (cmd/owner.go, cmd/manufacturing.go, voucher handler
tests).  Hashes are modelled symbolically: a hash value is the term
`HashV.ofHeader` (for `H(OVHeader ‖ headerHmac)`) or `OVEntry.toHash`
(for `H(encoded(Eᵢ))`), so hash equality is equality of the hashed
content — the random-oracle reading of the spec's chain equations.
COSE_Sign1 signatures are symbolic as well: an entry carries the signing
key and the payload the signature covers, and verification demands the
key be the expected signer and the covered payload equal the entry's
payload. -/

/-- A symbolic hash value: of the header-plus-HMAC, or of an encoded
entry (the entry's fields appear inline to keep the type non-mutual). -/
inductive HashV : Type where
  | ofHeader (guid mfgKey hmac : Nat)
  | ofEntry (prevHash : HashV) (extra newOwnerPK sigKey : Nat)
      (sigPrevHash : HashV) (sigExtra sigNewOwnerPK : Nat)
  deriving DecidableEq

/-- A voucher entry: the payload `{prevEntryHash, extra, newOwnerPK}` and
its COSE_Sign1 signature, symbolically the signing key and the payload
the signature covers. -/
structure OVEntry : Type where
  prevHash : HashV
  extra : Nat
  newOwnerPK : Nat
  sigKey : Nat
  sigPrevHash : HashV
  sigExtra : Nat
  sigNewOwnerPK : Nat
  deriving DecidableEq

/-- The hash of an encoded entry. -/
def OVEntry.toHash (e : OVEntry) : HashV :=
  .ofEntry e.prevHash e.extra e.newOwnerPK e.sigKey e.sigPrevHash e.sigExtra e.sigNewOwnerPK

/-- Voucher header: GUID and manufacturer public key (the fields the
chain algorithm reads; public keys are abstract and compared by
canonical encoding, so they are atoms here). -/
structure OVHeader : Type where
  guid : Nat
  mfgPublicKey : Nat
  deriving DecidableEq

/-- An ownership voucher: header, header HMAC and entry chain. -/
structure Voucher : Type where
  header : OVHeader
  headerHmac : Nat
  entries : List OVEntry
  deriving DecidableEq

/-- Chain-validation failure reasons (`ChainError` with a specific reason
code). -/
inductive ChainError : Type where
  | signatureMismatch
  | prevHashMismatch
  deriving DecidableEq

/-- The hash of the header-plus-HMAC of a voucher:
`H(encoded(V.header) ‖ V.headerHmac)`. -/
def headerHash (v : Voucher) : HashV :=
  .ofHeader v.header.guid v.header.mfgPublicKey v.headerHmac

/-- The chain-validation loop of spec section 4.5: verify each entry's
signature with the expected signer, require its `prevEntryHash` to equal
the running hash, then advance the hash and the expected signer.  Returns
the current owner key on success. -/
def chainGo : HashV → Nat → List OVEntry → Except ChainError Nat
  | _, pk, [] => .ok pk
  | h, pk, e :: es =>
    if e.sigKey = pk ∧ e.sigPrevHash = e.prevHash ∧ e.sigExtra = e.extra ∧
        e.sigNewOwnerPK = e.newOwnerPK then
      if e.prevHash = h then chainGo e.toHash e.newOwnerPK es
      else .error .prevHashMismatch
    else .error .signatureMismatch

/-- `validateChain`: run the chain check from the header hash and the
manufacturer key. -/
def validateChain (v : Voucher) : Except ChainError Nat :=
  chainGo (headerHash v) v.header.mfgPublicKey v.entries

/-- The owner key after walking a chain of entries from initial key
`pk`: the terminal entry's `newOwnerPK`, or `pk` for an empty chain. -/
def ownerAfter (pk : Nat) : List OVEntry → Nat
  | [] => pk
  | e :: es => ownerAfter e.newOwnerPK es

/-- `currentOwnerPK`: the terminal entry's `newOwnerPK`, or the
manufacturer key for an unextended voucher. -/
def currentOwnerPK (v : Voucher) : Nat :=
  ownerAfter v.header.mfgPublicKey v.entries

/-- The hash the validation loop carries after a (sub)chain of entries,
started from hash `h`: the last entry's hash, or `h` itself. -/
def goLast (h : HashV) : List OVEntry → HashV
  | [] => h
  | e :: es => goLast e.toHash es

/-- The hash the next appended entry must reference: the last entry's
hash, or the header hash for an unextended voucher. -/
def lastHash (v : Voucher) : HashV :=
  goLast (headerHash v) v.entries

/-- `extend(V, newOwnerPK, signerKey)`: append an entry over
`{prevEntryHash := H(last), extra, newOwnerPK}` signed with `signerKey`. -/
def extendOV (v : Voucher) (newPK signerKey : Nat) : Voucher :=
  { v with entries := v.entries ++
      [{ prevHash := lastHash v, extra := 0, newOwnerPK := newPK, sigKey := signerKey,
         sigPrevHash := lastHash v, sigExtra := 0, sigNewOwnerPK := newPK }] }

/-- Iterated honest extension: each step signs with the current owner's
key, as `extend`'s `currentOwnerSigner` argument requires. -/
def extendAll (v : Voucher) (ks : List Nat) : Voucher :=
  ks.foldl (fun w k => extendOV w k (currentOwnerPK w)) v

/-- A default entry for positional access. -/
def dfltEntry : OVEntry :=
  ⟨.ofHeader 0 0 0, 0, 0, 0, .ofHeader 0 0 0, 0, 0⟩

/-- The spec's chain conditions at position `i` of an entry list checked
from initial hash `h0` and initial signer `pk0`: the signature is by the
expected signer over the entry's own payload, and `prevEntryHash` is the
hash of the predecessor (or `h0` at position 0). -/
def checksGo (h0 : HashV) (pk0 : Nat) (es : List OVEntry) (i : Nat) : Prop :=
  (es.getD i dfltEntry).sigKey =
      (if i = 0 then pk0 else (es.getD (i - 1) dfltEntry).newOwnerPK) ∧
  (es.getD i dfltEntry).sigPrevHash = (es.getD i dfltEntry).prevHash ∧
  (es.getD i dfltEntry).sigExtra = (es.getD i dfltEntry).extra ∧
  (es.getD i dfltEntry).sigNewOwnerPK = (es.getD i dfltEntry).newOwnerPK ∧
  (es.getD i dfltEntry).prevHash =
      (if i = 0 then h0 else (es.getD (i - 1) dfltEntry).toHash)

/-- The chain check of voucher `v` at entry `i`. -/
def entryChecksAt (v : Voucher) (i : Nat) : Prop :=
  checksGo (headerHash v) v.header.mfgPublicKey v.entries i

instance (h0 : HashV) (pk0 : Nat) (es : List OVEntry) (i : Nat) :
    Decidable (checksGo h0 pk0 es i) := by
  unfold checksGo; infer_instance

instance (v : Voucher) (i : Nat) : Decidable (entryChecksAt v i) := by
  unfold entryChecksAt; infer_instance

/-
Section 8: control-API handlers.
-/

/-- The parts of an HTTP request `OwnerDevicesHandler` inspects: the
method and the `old_guid` query parameter (Go's `Query().Get` returns
the empty string when the parameter is absent). -/
structure HttpRequest : Type where
  method : String
  oldGuid : String

/-- A hexadecimal digit. -/
def isHexChar (c : Char) : Bool :=
  (decide ('0' ≤ c) && decide (c ≤ '9')) ||
  (decide ('a' ≤ c) && decide (c ≤ 'f')) ||
  (decide ('A' ≤ c) && decide (c ≤ 'F'))

/-- Modelled from the spec: `utils.IsValidGUID` is not under src/; the
spec's data model says a GUID is a 128-bit device identifier, so its hex
form is exactly 32 hex digits. -/
def isValidGUID (s : String) : Bool :=
  s.length == 32 && s.toList.all isHexChar

/-- Value of one hex digit. -/
def hexVal (c : Char) : Option Nat :=
  if '0' ≤ c ∧ c ≤ '9' then some (c.toNat - '0'.toNat)
  else if 'a' ≤ c ∧ c ≤ 'f' then some (c.toNat - 'a'.toNat + 10)
  else if 'A' ≤ c ∧ c ≤ 'F' then some (c.toNat - 'A'.toNat + 10)
  else none

/-- `hex.DecodeString`: an even-length hex string to bytes. -/
def decodeHex : List Char → Option (List Nat)
  | [] => some []
  | [_] => none
  | a :: b :: r => do
    let hi ← hexVal a
    let lo ← hexVal b
    let rest ← decodeHex r
    some ((hi * 16 + lo) :: rest)

/-- What a handler does before touching the database: an immediate error
reply, or a device-list query with the decoded GUID filter. -/
inductive HandlerStep : Type where
  | reply (status : Nat)
  | queryDevices (oldGuid : Option (List Nat))
  deriving DecidableEq

/-- `OwnerDevicesHandler` (src/unnamed/part_000 lines 19-45) up to its
first database access: non-GET gets 405; a nonempty `old_guid` that is
not a valid GUID (or fails hex decoding) gets 400; otherwise the device
list is queried with the optional decoded filter. -/
def ownerDevicesHandler (r : HttpRequest) : HandlerStep :=
  if r.method ≠ "GET" then .reply 405
  else if r.oldGuid ≠ "" then
    if ¬ isValidGUID r.oldGuid then .reply 400
    else match decodeHex r.oldGuid.toList with
      | none => .reply 400
      | some bs => .queryDevices (some bs)
  else .queryDevices none

/-- An abstract parsed rvinfo JSON document (`db.Data`). -/
abbrev RvData : Type := Nat

/-- `createRvData` (api/handlers/rvinfo.go lines 58-96) over the abstract
rvinfo store (`none` = no row).  `parsed` is the result of
`parseRequestBody`; `retrieveOk` abstracts `rvinfo.RetrieveRvInfo`
(database errors of `CheckDataExists`/`InsertData` are not modelled).
Returns the HTTP status and the store afterwards. -/
def createRvData (parsed : Except Unit RvData) (st : Option RvData)
    (retrieveOk : Bool) : Nat × Option RvData :=
  match parsed with
  | .error _ => (400, st)
  | .ok d =>
    match st with
    | some _ => (409, st)
    | none => if retrieveOk then (201, some d) else (500, some d)

/-- `updateRvData` (api/handlers/rvinfo.go lines 98-135) over the
abstract rvinfo store, analogously. -/
def updateRvData (parsed : Except Unit RvData) (st : Option RvData)
    (retrieveOk : Bool) : Nat × Option RvData :=
  match parsed with
  | .error _ => (400, st)
  | .ok d =>
    match st with
    | none => (404, none)
    | some _ => if retrieveOk then (200, some d) else (500, some d)

/-
Theorems.
-/

/-
Claim C5 / C6: the cipher-suite registry.
-/

/-- Claim C5, counterexample: contrary to the claim, the registry built
by the package `init` holds no entry at all for AES-CCM-64-128-128
(ID 32) or AES-CCM-64-128-256 (ID 33), let alone one with `MacAlg = 0`. -/
theorem claim_C5_cex :
    suiteLookup AesCcm64_128_128Cipher = none ∧
    suiteLookup AesCcm64_128_256Cipher = none := by decide

/-- Claim C5, amended: the registry holds exactly the three AES-GCM
suites with `MacAlg = 0`, and the four encrypt-then-MAC CTR/CBC suites
with HMAC-SHA256/PRF-SHA256 (AES-128) resp. HMAC-SHA384/PRF-SHA384
(AES-256); the AES-CCM-64-128-* suites are not registered; every
registered non-AE suite has `MacAlg ≠ 0` and every registered AE suite
has `MacAlg = 0`. -/
theorem claim_C5 :
    (suiteLookup A128GcmCipher = some ⟨coseA128GCM, 0, .sha256⟩ ∧
     suiteLookup A192GcmCipher = some ⟨coseA192GCM, 0, .sha256⟩ ∧
     suiteLookup A256GcmCipher = some ⟨coseA256GCM, 0, .sha256⟩ ∧
     suiteLookup CoseAes128CtrCipher = some ⟨coseA128CTR, coseHMac256, .sha256⟩ ∧
     suiteLookup CoseAes128CbcCipher = some ⟨coseA128CBC, coseHMac256, .sha256⟩ ∧
     suiteLookup CoseAes256CtrCipher = some ⟨coseA256CTR, coseHMac384, .sha384⟩ ∧
     suiteLookup CoseAes256CbcCipher = some ⟨coseA256CBC, coseHMac384, .sha384⟩) ∧
    (suiteLookup AesCcm64_128_128Cipher = none ∧
     suiteLookup AesCcm64_128_256Cipher = none) ∧
    (∀ p ∈ ciphers, isNonAE p.2.encryptAlg = true → p.2.macAlg ≠ 0) ∧
    (∀ p ∈ ciphers, isNonAE p.2.encryptAlg = false → p.2.macAlg = 0) := by
  decide

/-- Claim C5 witness: the amended theorem applied to the registered
AES-128-CTR suite. -/
theorem claim_C5_wit :
    (⟨coseA128CTR, coseHMac256, .sha256⟩ : CipherSuite).macAlg ≠ 0 :=
  claim_C5.2.2.1 (CoseAes128CtrCipher, ⟨coseA128CTR, coseHMac256, .sha256⟩)
    (by decide) (by decide)

/-- Claim C6: the deprecated suites AesCcm16_128_128 (ID 30) and
AesCcm16_128_256 (ID 31) are never registered, so `Suite()` cannot
return a usable suite for them, and `CipherSuiteByName` maps no name to
either ID. -/
theorem claim_C6 :
    suiteLookup AesCcm16_128_128Cipher = none ∧
    suiteLookup AesCcm16_128_256Cipher = none ∧
    ∀ name : String, cipherSuiteByName name ≠ some AesCcm16_128_128Cipher ∧
      cipherSuiteByName name ≠ some AesCcm16_128_256Cipher := by
  refine ⟨by decide, by decide, fun name => ⟨?_, ?_⟩⟩ <;>
    · simp only [cipherSuiteByName]
      split_ifs <;> decide

/-- Claim C6 witness: no name, in particular "AES-CCM-16-128-128",
reaches ID 30. -/
theorem claim_C6_wit :
    cipherSuiteByName "AES-CCM-16-128-128" ≠ some AesCcm16_128_128Cipher :=
  (claim_C6.2.2 "AES-CCM-16-128-128").1

/-
Claim C8: the buffered pipe.
-/

/-- The state reached from a fresh pipe by `n + 1` writes of one byte:
the buffer has grown to `n + 1` bytes with nothing ever blocking. -/
theorem bufPipe_reach_replicate (n : Nat) :
    BufPipeReach ⟨List.replicate (n + 1) 0, false, true⟩ := by
  induction n with
  | zero => simpa [bufPipeWrite] using BufPipeReach.wr _ [0] BufPipeReach.init
  | succ k ih =>
    have h := BufPipeReach.wr _ [0] ih
    simp only [bufPipeWrite] at h
    simpa [← List.replicate_succ' (k + 1)] using h

/-- Claim C8, counterexample: the internal buffer of a buffered pipe is
not bounded — no bound `B` covers all reachable states, since `B + 1`
one-byte writes succeed without any read draining the buffer. -/
theorem claim_C8_cex :
    ¬ ∃ B : Nat, ∀ s : BufPipe, BufPipeReach s → s.buf.length ≤ B := by
  rintro ⟨B, hB⟩
  have h := hB _ (bufPipe_reach_replicate B)
  simp at h

/-- Claim C8, amended: the chunk pipes' `bufPipe` has an unbounded
internal buffer and its `Write` never blocks — on any open pipe it
appends its whole input (signalling the 1-slot channel) and reports full
success, whatever the buffer already holds; arbitrarily large buffered
states are reachable. -/
theorem claim_C8 :
    (∀ (s : BufPipe) (p : List Nat), s.closed = false →
      bufPipeWrite s p = ({ s with buf := s.buf ++ p, sig := true }, .ok p.length)) ∧
    (∀ n : Nat, ∃ s : BufPipe, BufPipeReach s ∧ n ≤ s.buf.length) := by
  constructor
  · intro s p h
    simp [bufPipeWrite, h]
  · intro n
    exact ⟨_, bufPipe_reach_replicate n, by simp⟩

/-- Claim C8 witness: a concrete write on an open pipe with a nonempty
buffer succeeds in full. -/
theorem claim_C8_wit :
    bufPipeWrite ⟨[1, 2], false, false⟩ [3] = (⟨[1, 2, 3], false, true⟩, .ok 1) :=
  claim_C8.1 ⟨[1, 2], false, false⟩ [3] rfl

/-
Claim C9 / C10: control-API handlers.
-/

/-- Claim C9: `OwnerDevicesHandler` replies 405 to every non-GET request
and 400 to every GET whose nonempty `old_guid` is not a valid GUID, in
both cases without querying the device list. -/
theorem claim_C9 :
    (∀ r : HttpRequest, r.method ≠ "GET" → ownerDevicesHandler r = .reply 405) ∧
    (∀ r : HttpRequest, r.method = "GET" → r.oldGuid ≠ "" →
      isValidGUID r.oldGuid = false → ownerDevicesHandler r = .reply 400) := by
  constructor
  · intro r h
    simp [ownerDevicesHandler, h]
  · intro r hm hg hv
    simp [ownerDevicesHandler, hm, hg, hv]

/-- Claim C9 witness: a POST gets 405; a GET with `old_guid=zz` gets
400. -/
theorem claim_C9_wit :
    ownerDevicesHandler ⟨"POST", ""⟩ = .reply 405 ∧
    ownerDevicesHandler ⟨"GET", "zz"⟩ = .reply 400 :=
  ⟨claim_C9.1 ⟨"POST", ""⟩ (by decide),
   claim_C9.2 ⟨"GET", "zz"⟩ rfl (by decide) (by decide)⟩

/-- Claim C10, counterexample: a POST whose body does not parse is
answered 400, not 409, even while rvinfo data exists (the store is still
left unchanged). -/
theorem claim_C10_cex :
    createRvData (.error ()) (some (0 : RvData)) true = (400, some 0) ∧
    (createRvData (.error ()) (some (0 : RvData)) true).1 ≠ 409 := by decide

/-- Claim C10, amended: for every POST whose body parses, when rvinfo
data already exists the handler returns 409 and the stored data is
unchanged; for every PUT whose body parses, when no rvinfo data exists
it returns 404 and no data is created.  (A request whose body fails to
parse gets 400, likewise with the store unchanged.) -/
theorem claim_C10 :
    (∀ (d : RvData) (st : Option RvData) (r : Bool), st.isSome = true →
      createRvData (.ok d) st r = (409, st)) ∧
    (∀ (d : RvData) (r : Bool), updateRvData (.ok d) none r = (404, none)) ∧
    (∀ (p : Except Unit RvData) (st : Option RvData),
      createRvData p st true = (400, st) ∨ (createRvData p st true).1 ≠ 400) := by
  refine ⟨?_, ?_, ?_⟩
  · rintro d (_ | v) r h
    · simp at h
    · rfl
  · intro d r; rfl
  · rintro (e | d) st
    · exact Or.inl rfl
    · cases st <;> simp [createRvData]

/-- Claim C10 witness: a parsed POST against an existing row conflicts
and leaves the row in place. -/
theorem claim_C10_wit :
    createRvData (.ok (1 : RvData)) (some 5) true = (409, some 5) :=
  claim_C10.1 1 (some 5) true rfl

/-
Claim C3: the ReadChunk overhead computation.
-/

/-- Claim C3, counterexample: with the one-byte key `[97]` (encoded key
length 2) and `size = 9 = |encodedKey| + 7`, the remaining budget after
overhead is 5 < 24, yet `ReadChunk` does not return `ErrSizeTooSmall` —
it returns a 5-byte value chunk. -/
theorem claim_C3_cex :
    9 = encStrLen [97] + 7 ∧
    readChunkOverhead 9 (encStrLen [97]) = encStrLen [97] + 2 ∧
    (9 : Int) - (readChunkOverhead 9 (encStrLen [97]) : Int) < 24 ∧
    readChunkFirst 9 ⟨[97], [1, 2, 3, 4, 5, 6, 7]⟩ = .frame ⟨[97], [1, 2, 3, 4, 5]⟩ := by
  decide

/-- Claim C3, amended: `ReadChunk(size)` reserves `1 + |encodedKey| + 1`
bytes plus 0, 1 or 2 value-length bytes of overhead, and returns
`ErrSizeTooSmall` exactly when the budget after overhead is zero or
negative — that is, when `size ≤ |encodedKey| + 2` — not when it is
below 24; in particular for `size = |encodedKey| + 7` the read of a KV
with a nonempty value succeeds and returns a value chunk of at most 5
bytes, while an empty-value KV yields no frame at all (the reader skips
to the next logical KV). -/
theorem claim_C3 :
    (∀ size ek : Nat, readChunkOverhead size ek = ek + 2 ∨
      readChunkOverhead size ek = ek + 3 ∨ readChunkOverhead size ek = ek + 4) ∧
    (∀ size ek : Nat, readChunkBudget size ek = none ↔ size ≤ ek + 2) ∧
    (∀ kv : SIKV, kv.val ≠ [] → encStrLen kv.key + 7 < 65536 →
      readChunkFirst (encStrLen kv.key + 7) kv = .frame ⟨kv.key, kv.val.take 5⟩) ∧
    (∀ kv : SIKV, kv.val = [] → encStrLen kv.key + 7 < 65536 →
      readChunkFirst (encStrLen kv.key + 7) kv = .nextKV) := by
  have hbudget : ∀ kv : SIKV, encStrLen kv.key + 7 < 65536 →
      keyLimit (encStrLen kv.key + 7) = encStrLen kv.key ∧
      readChunkBudget (encStrLen kv.key + 7) (encStrLen kv.key) = some 5 := by
    intro kv h
    have hk : keyLimit (encStrLen kv.key + 7) = encStrLen kv.key := by
      simp only [keyLimit, u16sub]
      omega
    have ho : readChunkOverhead (encStrLen kv.key + 7) (encStrLen kv.key) =
        encStrLen kv.key + 2 := by
      simp only [readChunkOverhead]
      split_ifs <;> omega
    refine ⟨hk, ?_⟩
    simp only [readChunkBudget, ho]
    rw [if_neg (by omega)]
    have h5 : encStrLen kv.key + 7 - (encStrLen kv.key + 2) = 5 := by omega
    rw [h5]
  refine ⟨?_, ?_, ?_, ?_⟩
  · intro size ek
    simp only [readChunkOverhead]
    split_ifs <;> omega
  · intro size ek
    simp only [readChunkBudget, readChunkOverhead]
    split_ifs <;> simp <;> omega
  · intro kv hval h
    obtain ⟨hk, hb⟩ := hbudget kv h
    unfold readChunkFirst
    rw [hk, if_pos (le_refl _), hb]
    match hv : kv.val, hval with
    | x :: xs, _ => rfl
  · intro kv hval h
    obtain ⟨hk, hb⟩ := hbudget kv h
    unfold readChunkFirst
    rw [hk, if_pos (le_refl _), hb, hval]

/-- Claim C3 witness: the amended success case at the concrete key
`[97]` with a nonempty value. -/
theorem claim_C3_wit :
    readChunkFirst 9 ⟨[97], [1, 2, 3, 4, 5, 6, 7]⟩ = .frame ⟨[97], [1, 2, 3, 4, 5]⟩ :=
  claim_C3.2.2.1 ⟨[97], [1, 2, 3, 4, 5, 6, 7]⟩ (by decide) (by decide)

/-
Claim C1: voucher chain validation.
-/

/-- `goLast` steps over the head entry. -/
theorem goLast_cons (h : HashV) (a : OVEntry) (es : List OVEntry) :
    goLast h (a :: es) = goLast a.toHash es := rfl

/-- Appending one entry to a chain that validates to owner `pk'` checks
the new entry against `pk'` and the chain's final hash. -/
theorem chainGo_append (es : List OVEntry) : ∀ (h : HashV) (pk : Nat) (e : OVEntry)
    (pk' : Nat), chainGo h pk es = .ok pk' →
    chainGo h pk (es ++ [e]) =
      if e.sigKey = pk' ∧ e.sigPrevHash = e.prevHash ∧ e.sigExtra = e.extra ∧
          e.sigNewOwnerPK = e.newOwnerPK then
        (if e.prevHash = goLast h es then .ok e.newOwnerPK
         else .error .prevHashMismatch)
      else .error .signatureMismatch := by
  induction es with
  | nil =>
    intro h pk e pk' hok
    simp only [chainGo] at hok
    cases hok
    simp [chainGo, goLast]
  | cons a es ih =>
    intro h pk e pk' hok
    simp only [chainGo] at hok
    split_ifs at hok with h1 h2
    simp only [List.cons_append, chainGo, if_pos h1, if_pos h2, goLast_cons]
    exact ih a.toHash a.newOwnerPK e pk' hok

/-- The owner returned by a successful chain check is the final entry's
`newOwnerPK` (or the starting key for an empty chain). -/
theorem chainGo_owner (es : List OVEntry) : ∀ (h : HashV) (pk pk' : Nat),
    chainGo h pk es = .ok pk' → ownerAfter pk es = pk' := by
  induction es with
  | nil =>
    intro h pk pk' hok
    simp only [chainGo] at hok
    cases hok
    rfl
  | cons a es ih =>
    intro h pk pk' hok
    simp only [chainGo] at hok
    split_ifs at hok with h1 h2
    exact ih a.toHash a.newOwnerPK pk' hok

/-- A successful `validateChain` returns `currentOwnerPK`. -/
theorem validate_owner (v : Voucher) (pk : Nat) (h : validateChain v = .ok pk) :
    currentOwnerPK v = pk :=
  chainGo_owner v.entries (headerHash v) v.header.mfgPublicKey pk h

/-- Extending a valid voucher with the current owner's signature yields a
voucher that validates to the new owner. -/
theorem validate_extend (v : Voucher) (pk newPK : Nat)
    (hv : validateChain v = .ok pk) :
    validateChain (extendOV v newPK pk) = .ok newPK := by
  simp only [validateChain, extendOV, headerHash] at hv ⊢
  rw [chainGo_append v.entries _ _ _ _ hv]
  simp [lastHash, headerHash]

/-- The last element of a pushed list, with a default. -/
theorem lastD_cons (ks : List Nat) (k pk : Nat) :
    ((k :: ks).getLast?).getD pk = (ks.getLast?).getD k := by
  rw [← List.getLastD_eq_getLast?, ← List.getLastD_eq_getLast?, List.getLastD_cons]

/-- Honest iterated extension of a valid voucher validates to the last
supplied owner key. -/
theorem extendAll_ok (ks : List Nat) : ∀ (v : Voucher) (pk : Nat),
    validateChain v = .ok pk →
    validateChain (extendAll v ks) = .ok ((ks.getLast?).getD pk) := by
  induction ks with
  | nil =>
    intro v pk hv
    simpa [extendAll] using hv
  | cons k ks ih =>
    intro v pk hv
    have hcur : currentOwnerPK v = pk := validate_owner v pk hv
    have h2 : validateChain (extendOV v k (currentOwnerPK v)) = .ok k := by
      rw [hcur]; exact validate_extend v pk k hv
    have h3 := ih (extendOV v k (currentOwnerPK v)) k h2
    rw [lastD_cons]
    simpa [extendAll] using h3

/-- A fully successful chain check means every entry satisfies the spec's
per-entry conditions. -/
theorem chainGo_ok_all (es : List OVEntry) : ∀ (h0 : HashV) (pk0 r : Nat),
    chainGo h0 pk0 es = .ok r → ∀ i, i < es.length → checksGo h0 pk0 es i := by
  induction es with
  | nil =>
    intro h0 pk0 r _ i hi
    simp at hi
  | cons e es ih =>
    intro h0 pk0 r hok i hi
    simp only [chainGo] at hok
    split_ifs at hok with h1 h2
    match i with
    | 0 =>
      simp only [checksGo, List.getD_cons_zero, if_pos rfl]
      exact ⟨h1.1, h1.2.1, h1.2.2.1, h1.2.2.2, h2⟩
    | j + 1 =>
      have hj := ih e.toHash e.newOwnerPK r hok j (by simpa using hi)
      simp only [checksGo] at hj ⊢
      match j with
      | 0 => simpa using hj
      | j' + 1 => simpa using hj

/-- Claim C1: a voucher produced from a DI voucher (empty entry chain) by
honest iterated extension validates, and its current owner is the last
`newOwnerPK` supplied; conversely, whenever any entry of a voucher fails
the spec's chain conditions, `validateChain` returns a `ChainError` — the
voucher (whatever valid prefix it has) is not accepted. -/
theorem claim_C1 :
    (∀ (v0 : Voucher) (ks : List Nat) (k : Nat), v0.entries = [] →
      ks.getLast? = some k →
      validateChain (extendAll v0 ks) = .ok k ∧
        currentOwnerPK (extendAll v0 ks) = k) ∧
    (∀ (v : Voucher) (i : Nat), i < v.entries.length → ¬ entryChecksAt v i →
      ∃ c, validateChain v = .error c) := by
  constructor
  · intro v0 ks k h0 hks
    have hv0 : validateChain v0 = .ok v0.header.mfgPublicKey := by
      simp [validateChain, h0, chainGo]
    have h := extendAll_ok ks v0 v0.header.mfgPublicKey hv0
    rw [hks] at h
    exact ⟨h, validate_owner _ _ h⟩
  · intro v i hi hfail
    match hv : validateChain v with
    | .ok r => exact absurd (chainGo_ok_all v.entries _ _ r hv i hi) hfail
    | .error c => exact ⟨c, rfl⟩

/-- Claim C1 witness: a DI voucher extended twice validates to the second
owner key, and a voucher whose single entry is signed with the wrong key
is rejected with a `ChainError`. -/
theorem claim_C1_wit :
    validateChain (extendAll ⟨⟨10, 2⟩, 3, []⟩ [5, 7]) = .ok 7 ∧
    ∃ c, validateChain
        ⟨⟨10, 2⟩, 3, [⟨.ofHeader 10 2 3, 0, 4, 99, .ofHeader 10 2 3, 0, 4⟩]⟩ =
      .error c :=
  ⟨(claim_C1.1 ⟨⟨10, 2⟩, 3, []⟩ [5, 7] 7 rfl rfl).1,
   claim_C1.2 ⟨⟨10, 2⟩, 3, [⟨.ofHeader 10 2 3, 0, 4, 99, .ofHeader 10 2 3, 0, 4⟩]⟩ 0
     (by decide) (by decide)⟩

/-
Claim C4: devmod module-list pagination.
-/

/-- The CBOR header length is monotone in the argument. -/
theorem cborArgHdrLen_mono {a b : Nat} (h : a ≤ b) :
    cborArgHdrLen a ≤ cborArgHdrLen b := by
  simp only [cborArgHdrLen]
  split_ifs <;> omega

/-- The encoded chunk message grows (weakly) with the start index. -/
theorem devmodChunkMsgSize_mono_start {s s' : Nat} (names : List (List Nat))
    (h : s ≤ s') : devmodChunkMsgSize s names ≤ devmodChunkMsgSize s' names := by
  have := cborArgHdrLen_mono h
  simp only [devmodChunkMsgSize]
  omega

/-- The chunk-building loop: with enough fuel, a start index consistent
with the totals, an open chunk that fits the MTU, and every single name
fitting the MTU on its own, the loop succeeds and emits chunks that fit
the MTU, have `len` equal to their name count, start exactly where the
previous chunk ended, and concatenate to the pending modules. -/
theorem writeModulesF_ok (mtu n : Nat) :
    ∀ (f start : Nat) (cur rest : List (List Nat)),
    2 * rest.length + (if cur = [] then 1 else 2) ≤ f →
    start + cur.length + rest.length ≤ n →
    (cur = [] ∨ devmodChunkMsgSize start cur ≤ mtu) →
    (rest = [] → cur ≠ []) →
    (∀ m ∈ rest, devmodChunkMsgSize n [m] ≤ mtu) →
    ∃ cs, writeModulesF f mtu start cur rest = some cs ∧
      (∀ c ∈ cs, devmodChunkMsgSize c.start c.modules ≤ mtu ∧
        c.len = c.modules.length) ∧
      startsFrom start cs ∧
      (cs.map DevmodModulesChunk.modules).flatten = cur ++ rest := by
  intro f
  induction f with
  | zero =>
    intro start cur rest hfuel _ _ _ _
    have hcif : 1 ≤ (if cur = [] then 1 else 2) := by split <;> omega
    omega
  | succ f ih =>
    intro start cur rest hfuel htot hinv hlast hfit
    cases rest with
    | nil =>
      have hcur : cur ≠ [] := hlast rfl
      refine ⟨[⟨start, cur.length, cur⟩], rfl, ?_, ⟨rfl, trivial⟩, by simp⟩
      intro c hc
      simp only [List.mem_singleton] at hc
      subst hc
      exact ⟨hinv.resolve_left hcur, rfl⟩
    | cons m rest' =>
      simp only [List.length_cons] at hfuel htot
      have hf2 : 2 * rest'.length + 2 ≤ f := by
        rcases eq_or_ne cur ([] : List (List Nat)) with hc | hc
        · rw [if_pos hc] at hfuel; omega
        · rw [if_neg hc] at hfuel; omega
      simp only [writeModulesF]
      by_cases hsz : devmodChunkMsgSize start (cur ++ [m]) ≤ mtu
      · rw [if_pos hsz]
        have h := ih start (cur ++ [m]) rest'
          (by
            rw [if_neg (by simp)]
            omega)
          (by simp only [List.length_append, List.length_singleton]; omega)
          (Or.inr hsz) (fun _ => by simp) (fun x hx => hfit x (List.mem_cons_of_mem m hx))
        obtain ⟨cs, h1, h2, h3, h4⟩ := h
        exact ⟨cs, h1, h2, h3, by rw [h4]; simp⟩
      · rw [if_neg hsz]
        have hcurne : cur ≠ [] := by
          intro hc
          subst hc
          have hm := hfit m (List.mem_cons_self m rest')
          have hmono : devmodChunkMsgSize start [m] ≤ devmodChunkMsgSize n [m] :=
            devmodChunkMsgSize_mono_start [m] (by omega)
          simp only [List.nil_append] at hsz
          exact hsz (le_trans hmono hm)
        have hfuel2 : 2 * (rest'.length + 1) + 2 ≤ f + 1 := by
          rw [if_neg hcurne] at hfuel; omega
        rw [if_neg (by simpa using fun h => hcurne (List.length_eq_zero.mp h))]
        have h := ih (start + cur.length) [] (m :: rest')
          (by
            rw [if_pos rfl]
            simp only [List.length_cons]
            omega)
          (by simp only [List.length_nil, List.length_cons]; omega)
          (Or.inl rfl) (by simp) hfit
        obtain ⟨cs, h1, h2, h3, h4⟩ := h
        refine ⟨⟨start, cur.length, cur⟩ :: cs, by rw [h1]; rfl, ?_, ⟨rfl, h3⟩, ?_⟩
        · intro c hc
          rcases List.mem_cons.mp hc with hc | hc
          · subst hc
            exact ⟨hinv.resolve_left hcurne, rfl⟩
          · exact h2 c hc
        · simp only [List.map_cons, List.flatten_cons, h4, List.nil_append]

/-- Claim C4: for a non-empty module list and an MTU large enough for
each single name, `writeModuleMessages` succeeds and emits chunks whose
encoded ServiceInfo fits the MTU, whose `len` equals their name count,
whose start indices are the running sums of the preceding `len`s, and
whose names concatenate to the original list in order. -/
theorem claim_C4 (mtu : Nat) (modules : List (List Nat)) (hne : modules ≠ [])
    (hfit : ∀ m ∈ modules, devmodChunkMsgSize modules.length [m] ≤ mtu) :
    ∃ cs, writeModuleMessages mtu modules = some cs ∧
      (∀ c ∈ cs, devmodChunkMsgSize c.start c.modules ≤ mtu ∧
        c.len = c.modules.length) ∧
      startsFrom 0 cs ∧
      (cs.map DevmodModulesChunk.modules).flatten = modules := by
  have h := writeModulesF_ok mtu modules.length (2 * modules.length + 1) 0 [] modules
    (by simp) (by simp) (Or.inl rfl) (fun h => absurd h hne) hfit
  simpa [writeModuleMessages] using h

/-- Claim C4 witness: two three-byte module names at MTU 100. -/
theorem claim_C4_wit :
    ∃ cs, writeModuleMessages 100 [[102, 100, 111], [100, 101, 118]] = some cs ∧
      (∀ c ∈ cs, devmodChunkMsgSize c.start c.modules ≤ 100 ∧
        c.len = c.modules.length) ∧
      startsFrom 0 cs ∧
      (cs.map DevmodModulesChunk.modules).flatten = [[102, 100, 111], [100, 101, 118]] :=
  claim_C4 100 [[102, 100, 111], [100, 101, 118]] (by decide) (by decide)

/-
Claim C2: chunk-out / chunk-in round trip.
-/

/-- Within `uint16` range, the key limit is plain subtraction. -/
theorem keyLimit_eq (size : Nat) (h7 : 7 ≤ size) (h16 : size < 65536) :
    keyLimit size = size - 7 := by
  simp only [keyLimit, u16sub]
  omega

/-- A granted value budget is at least one byte. -/
theorem budget_pos (size ek b : Nat) (hb : readChunkBudget size ek = some b) :
    1 ≤ b := by
  simp only [readChunkBudget] at hb
  split_ifs at hb with h
  have := Option.some.inj hb
  omega

/-- Whenever the MTU leaves at least 7 bytes beyond the encoded key, the
value budget exists. -/
theorem budget_some (size ek : Nat) (h : ek + 7 ≤ size) :
    ∃ b, readChunkBudget size ek = some b := by
  simp only [readChunkBudget, readChunkOverhead]
  split_ifs <;> first
    | exact ⟨_, rfl⟩
    | omega

/-- Any chunk within the granted budget yields a frame whose encoded
ServiceInfo size is within the MTU. -/
theorem frame_fits (size ek c b : Nat) (hb : readChunkBudget size ek = some b)
    (hc : c ≤ b) (h16 : size < 65536) :
    1 + ek + cborArgHdrLen c + c ≤ size := by
  simp only [readChunkBudget, readChunkOverhead] at hb
  split_ifs at hb with h1 h2 h3
  all_goals
    have hbv := Option.some.inj hb
    simp only [cborArgHdrLen]
    split_ifs <;> omega

/-- `chunkSplitF` with enough fuel: the chunks concatenate back to the
value, and every chunk is nonempty and within the budget. -/
theorem chunkSplitF_spec : ∀ (f b : Nat) (v : List Nat), v.length ≤ f → 1 ≤ b →
    (chunkSplitF f b v).flatten = v ∧
    ∀ c ∈ chunkSplitF f b v, c ≠ [] ∧ c.length ≤ b := by
  intro f
  induction f with
  | zero =>
    intro b v hv _
    have hnil : v = [] := List.length_eq_zero.mp (by omega)
    subst hnil
    simp [chunkSplitF]
  | succ f ih =>
    intro b v hv hb
    match v with
    | [] => simp [chunkSplitF]
    | x :: xs =>
      obtain ⟨ih1, ih2⟩ := ih b ((x :: xs).drop b)
        (by simp only [List.length_drop, List.length_cons] at hv ⊢; omega) hb
      refine ⟨?_, ?_⟩
      · simp only [chunkSplitF, List.flatten_cons, ih1, List.take_append_drop]
      · intro c hc
        simp only [chunkSplitF] at hc
        rcases List.mem_cons.mp hc with rfl | hc
        · refine ⟨?_, by rw [List.length_take]; omega⟩
          match b, hb with
          | b + 1, _ => simp
        · exact ih2 c hc

/-- The chunks of a value under a granted budget: they concatenate to
the value, are nonempty, fit the budget, and there is at least one of
them when the value is nonempty. -/
theorem chunkSplit_spec (b : Nat) (v : List Nat) (hb : 1 ≤ b) :
    (chunkSplit b v).flatten = v ∧
    (∀ c ∈ chunkSplit b v, c ≠ [] ∧ c.length ≤ b) ∧
    (v ≠ [] → chunkSplit b v ≠ []) := by
  obtain ⟨h1, h2⟩ := chunkSplitF_spec v.length b v le_rfl hb
  refine ⟨h1, h2, fun hv hs => hv ?_⟩
  have hs' : chunkSplitF v.length b v = [] := hs
  have hv' : v = (chunkSplitF v.length b v).flatten := h1.symm
  rw [hs'] at hv'
  simpa using hv'

/-- One frame with the open key merges into the open logical KV. -/
theorem chunkInGo_cons_same (k c acc : List Nat) (fs : List SIKV) :
    chunkInGo (⟨k, c⟩ :: fs) (some (k, acc)) = chunkInGo fs (some (k, acc ++ c)) := by
  simp [chunkInGo]

/-- A frame stream opens the logical KV of its first frame. -/
theorem chunkInGo_cons_none (k v : List Nat) (fs : List SIKV) :
    chunkInGo (⟨k, v⟩ :: fs) none = chunkInGo fs (some (k, v)) := rfl

/-- Consecutive frames of the same key merge into the open logical KV. -/
theorem chunkInGo_same_run : ∀ (cs : List (List Nat)) (k acc : List Nat)
    (fs : List SIKV),
    chunkInGo ((cs.map fun c => ⟨k, c⟩) ++ fs) (some (k, acc)) =
      chunkInGo fs (some (k, acc ++ cs.flatten)) := by
  intro cs
  induction cs with
  | nil => intro k acc fs; simp
  | cons c cs ih =>
    intro k acc fs
    simp only [List.map_cons, List.cons_append]
    rw [chunkInGo_cons_same, ih, List.flatten_cons, List.append_assoc]

/-- A frame stream that is empty or opens with a different key closes
the open logical KV. -/
theorem chunkInGo_break : ∀ (fs : List SIKV) (k : List Nat) (acc : List Nat),
    (fs = [] ∨ ∃ f fs', fs = f :: fs' ∧ f.key ≠ k) →
    chunkInGo fs (some (k, acc)) = ⟨k, acc⟩ :: chunkInGo fs none := by
  rintro fs k acc (rfl | ⟨f, fs', rfl, hne⟩)
  · rfl
  · simp only [chunkInGo, if_neg hne]

/-- The chunk-out pipe at an adequate MTU, followed by the chunk-in
pipe: the logical stream is reproduced exactly, every frame carries one
of the original keys whole, and every frame's encoded ServiceInfo fits
the MTU. -/
theorem chunkOut_roundtrip (size : Nat) (h16 : size < 65536) :
    ∀ (w : List SIKV),
    (∀ kv ∈ w, encStrLen kv.key + 7 ≤ size) →
    (∀ kv ∈ w, kv.val ≠ []) →
    adjDistinct w = true →
    ∃ frames, chunkOutFrames size w = some frames ∧
      chunkInGo frames none = w ∧
      (∀ fr ∈ frames, fr.key ∈ w.map SIKV.key ∧ encFrameLen fr ≤ size) ∧
      (∀ f₀, frames.head? = some f₀ → ∃ kv₀, w.head? = some kv₀ ∧ f₀.key = kv₀.key) := by
  intro w
  induction w with
  | nil =>
    intro _ _ _
    exact ⟨[], rfl, rfl, by simp, by simp⟩
  | cons kv w' ih =>
    intro hkey hval hadj
    have hk := hkey kv (List.mem_cons_self kv w')
    have hlim : encStrLen kv.key ≤ keyLimit size := by
      rw [keyLimit_eq size (by omega) h16]
      omega
    obtain ⟨b, hb⟩ := budget_some size (encStrLen kv.key) hk
    have hb1 := budget_pos size (encStrLen kv.key) b hb
    obtain ⟨hjoin, hpieces, hne⟩ := chunkSplit_spec b kv.val hb1
    have hpne : chunkSplit b kv.val ≠ [] := hne (hval kv (List.mem_cons_self kv w'))
    have hadj' : adjDistinct w' = true := by
      match w' with
      | [] => rfl
      | kv' :: t =>
        simp only [adjDistinct, Bool.and_eq_true] at hadj
        exact hadj.2
    have hheadne : ∀ kv', w'.head? = some kv' → kv'.key ≠ kv.key := by
      intro kv' hh
      match w', hh with
      | kv' :: t, rfl =>
        simp only [adjDistinct, Bool.and_eq_true, decide_eq_true_eq] at hadj
        exact fun h => hadj.1 h.symm
    obtain ⟨frames', h1', h2', h3', h4'⟩ := ih
      (fun x hx => hkey x (List.mem_cons_of_mem kv hx))
      (fun x hx => hval x (List.mem_cons_of_mem kv hx)) hadj'
    have hfkv : framesOfKV size kv =
        some ((chunkSplit b kv.val).map fun c => ⟨kv.key, c⟩) := by
      simp only [framesOfKV, if_pos hlim, hb]
    refine ⟨((chunkSplit b kv.val).map fun c => ⟨kv.key, c⟩) ++ frames', ?_, ?_, ?_, ?_⟩
    · simp only [chunkOutFrames, hfkv, h1', Option.bind_some, Option.pure_def]
      rfl
    · match hps : chunkSplit b kv.val, hpne with
      | p :: ps, _ =>
        simp only [List.map_cons, List.cons_append]
        rw [chunkInGo_cons_none, chunkInGo_same_run ps kv.key p frames']
        have hbreak : frames' = [] ∨ ∃ f fs', frames' = f :: fs' ∧ f.key ≠ kv.key := by
          match hfr : frames' with
          | [] => exact Or.inl rfl
          | f :: fs' =>
            obtain ⟨kv₀, hkv₀, hfkey⟩ := h4' f rfl
            exact Or.inr ⟨f, fs', rfl, hfkey ▸ hheadne kv₀ hkv₀⟩
        rw [chunkInGo_break frames' kv.key (p ++ ps.flatten) hbreak]
        have : p ++ ps.flatten = kv.val := by
          rw [← hjoin, hps]
          rfl
        rw [this, h2']
    · intro fr hfr
      rcases List.mem_append.mp hfr with hfr | hfr
      · obtain ⟨c, hc, rfl⟩ := List.mem_map.mp hfr
        refine ⟨by simp, ?_⟩
        have hcb := (hpieces c hc).2
        have := frame_fits size (encStrLen kv.key) c.length b hb hcb h16
        simp only [encFrameLen]
        omega
      · obtain ⟨hm, hs⟩ := h3' fr hfr
        exact ⟨by simp [hm], hs⟩
    · intro f₀ hf₀
      match hps : chunkSplit b kv.val, hpne with
      | p :: ps, _ =>
        rw [hps] at hf₀
        simp only [List.map_cons, List.cons_append, List.head?_cons,
          Option.some.injEq] at hf₀
        exact ⟨kv, rfl, by rw [← hf₀]⟩

/-- Claim C2, counterexample: at a generous MTU (100), two adjacent
logical KVs with the same key are merged into one by the round trip, and
a logical KV with an empty value is dropped entirely — the spec's
unconditional round-trip equality fails. -/
theorem claim_C2_cex :
    chunkRoundTrip 100 [⟨[97], [1]⟩, ⟨[97], [2]⟩] = some [⟨[97], [1, 2]⟩] ∧
    chunkRoundTrip 100 [⟨[97], [1]⟩, ⟨[97], [2]⟩] ≠
      some [⟨[97], [1]⟩, ⟨[97], [2]⟩] ∧
    chunkRoundTrip 100 [⟨[97], []⟩, ⟨[98], [5]⟩] = some [⟨[98], [5]⟩] ∧
    chunkRoundTrip 100 [⟨[97], []⟩, ⟨[98], [5]⟩] ≠
      some [⟨[97], []⟩, ⟨[98], [5]⟩] := by
  decide

/-- Claim C2, amended: for every logical stream whose values are
nonempty and whose adjacent keys differ, over an MTU within uint16 range
that leaves at least 7 bytes beyond each encoded key, the chunk-out
pipe succeeds and the chunk-in pipe reproduces the stream exactly; in
the chunked stream every frame carries a whole original key (keys are
never split) while values span successive frames with the same key, and
every frame's encoded ServiceInfo is at most the MTU. -/
theorem claim_C2 (size : Nat) (w : List SIKV) (h16 : size < 65536)
    (hkey : ∀ kv ∈ w, encStrLen kv.key + 7 ≤ size)
    (hval : ∀ kv ∈ w, kv.val ≠ [])
    (hadj : adjDistinct w = true) :
    chunkRoundTrip size w = some w ∧
    ∃ frames, chunkOutFrames size w = some frames ∧
      ∀ fr ∈ frames, fr.key ∈ w.map SIKV.key ∧ encFrameLen fr ≤ size := by
  obtain ⟨frames, h1, h2, h3, _⟩ := chunkOut_roundtrip size h16 w hkey hval hadj
  refine ⟨?_, frames, h1, h3⟩
  simp only [chunkRoundTrip, h1]
  exact congrArg some h2

/-- Claim C2 witness: a two-KV stream with distinct keys round-trips at
MTU 30. -/
theorem claim_C2_wit :
    chunkRoundTrip 30 [⟨[97], [1, 2, 3]⟩, ⟨[98], [4]⟩] =
      some [⟨[97], [1, 2, 3]⟩, ⟨[98], [4]⟩] :=
  (claim_C2 30 [⟨[97], [1, 2, 3]⟩, ⟨[98], [4]⟩] (by decide) (by decide) (by decide)
    (by decide)).1

/-
Claim C7: COSE header flat marshalling round trip.
-/

/-- Big-endian decode inverts big-endian encode. -/
theorem decBE_encBE : ∀ (k n : Nat) (rest : List Nat), n < 256 ^ k →
    decBE k (encBE k n ++ rest) = some (n, rest) := by
  intro k
  induction k with
  | zero =>
    intro n rest h
    have hn : n = 0 := by simpa using h
    subst hn
    rfl
  | succ k ih =>
    intro n rest h
    simp only [encBE, List.cons_append, decBE, List.append_eq]
    rw [ih (n % 256 ^ k) rest (Nat.mod_lt _ (by positivity))]
    show some (n / 256 ^ k * 256 ^ k + n % 256 ^ k, rest) = some (n, rest)
    rw [Nat.div_add_mod']

/-- Parsing the canonical header of a CBOR item recovers its major type
and argument and leaves exactly the rest of the input. -/
theorem hdr_parse (major n : Nat) (rest : List Nat) (_hmaj : major < 8)
    (hn : n < 2 ^ 64) :
    ∃ b bs, hdrBytes major n ++ rest = b :: bs ∧ b / 32 = major ∧
      readArg (b % 32) bs = some (n, rest) := by
  simp only [hdrBytes]
  split_ifs with h1 h2 h3 h4
  · refine ⟨32 * major + n, rest, rfl, by omega, ?_⟩
    have hb : (32 * major + n) % 32 = n := by omega
    rw [hb]
    simp only [readArg]
    rw [if_pos h1]
  · refine ⟨32 * major + 24, encBE 1 n ++ rest, by simp, by omega, ?_⟩
    have hb : (32 * major + 24) % 32 = 24 := by omega
    rw [hb]
    exact decBE_encBE 1 n rest (by simpa using h2)
  · refine ⟨32 * major + 25, encBE 2 n ++ rest, by simp, by omega, ?_⟩
    have hb : (32 * major + 25) % 32 = 25 := by omega
    rw [hb]
    exact decBE_encBE 2 n rest (by simpa using h3)
  · refine ⟨32 * major + 26, encBE 4 n ++ rest, by simp, by omega, ?_⟩
    have hb : (32 * major + 26) % 32 = 26 := by omega
    rw [hb]
    exact decBE_encBE 4 n rest (by simpa using h4)
  · refine ⟨32 * major + 27, encBE 8 n ++ rest, by simp, by omega, ?_⟩
    have hb : (32 * major + 27) % 32 = 27 := by omega
    rw [hb]
    exact decBE_encBE 8 n rest (by simpa using hn)

/-- Every encoded CBOR item has a header byte. -/
theorem hdrBytes_pos (major n : Nat) : 1 ≤ (hdrBytes major n).length := by
  simp only [hdrBytes]
  split_ifs <;> simp

/-- Every encoded CBOR item is nonempty. -/
theorem encVal_pos (v : CborVal) : 1 ≤ (encVal v).length := by
  match v with
  | .vuint n => simpa [encVal] using hdrBytes_pos 0 n
  | .vnint n => simpa [encVal] using hdrBytes_pos 1 n
  | .vbytes s =>
    simp only [encVal, List.length_append]
    have := hdrBytes_pos 2 s.length
    omega
  | .vtext s =>
    simp only [encVal, List.length_append]
    have := hdrBytes_pos 3 s.length
    omega
  | .varr xs =>
    simp only [encVal, List.length_append]
    have := hdrBytes_pos 4 (seqLen xs)
    omega
  | .vmap xs =>
    simp only [encVal, List.length_append]
    have := hdrBytes_pos 5 (pairsLen xs)
    omega
  | .vtag t v =>
    simp only [encVal, List.length_append]
    have := hdrBytes_pos 6 t
    omega
  | .vsimple n => simpa [encVal] using hdrBytes_pos 7 n

/-- Every encoded CBOR item is nonempty (byte-length version used to
resolve the pattern matches of the header decoder). -/
theorem encVal_ne_nil (v : CborVal) : encVal v ≠ [] := by
  intro h
  have := encVal_pos v
  rw [h] at this
  simp at this

mutual

/-- The decoding fuel needed for a value is within twice its encoded
length. -/
theorem needVal_le (v : CborVal) : needVal v ≤ 2 * (encVal v).length := by
  match v with
  | .vuint n =>
    simp only [needVal, encVal]
    have := hdrBytes_pos 0 n
    omega
  | .vnint n =>
    simp only [needVal, encVal]
    have := hdrBytes_pos 1 n
    omega
  | .vsimple n =>
    simp only [needVal, encVal]
    have := hdrBytes_pos 7 n
    omega
  | .vbytes s =>
    simp only [needVal, encVal, List.length_append]
    have := hdrBytes_pos 2 s.length
    omega
  | .vtext s =>
    simp only [needVal, encVal, List.length_append]
    have := hdrBytes_pos 3 s.length
    omega
  | .varr xs =>
    have h1 := needSeq_le xs
    have h2 := hdrBytes_pos 4 (seqLen xs)
    simp only [needVal, encVal, List.length_append]
    omega
  | .vmap xs =>
    have h1 := needPairs_le xs
    have h2 := hdrBytes_pos 5 (pairsLen xs)
    simp only [needVal, encVal, List.length_append]
    omega
  | .vtag t v =>
    have h1 := needVal_le v
    have h2 := hdrBytes_pos 6 t
    simp only [needVal, encVal, List.length_append]
    omega

theorem needSeq_le (xs : CborSeq) : needSeq xs ≤ 2 * (encSeq xs).length + 1 := by
  match xs with
  | .nil => simp [needSeq]
  | .cons v tl =>
    have h1 := needVal_le v
    have h2 := needSeq_le tl
    have h3 := encVal_pos v
    simp only [needSeq, encSeq, List.length_append]
    rcases Nat.le_total (needVal v) (needSeq tl) with h | h
    · rw [Nat.max_eq_right h]; omega
    · rw [Nat.max_eq_left h]; omega

theorem needPairs_le (ps : CborPairs) : needPairs ps ≤ 2 * (encPairs ps).length + 1 := by
  match ps with
  | .nil => simp [needPairs]
  | .cons k v tl =>
    have h1 := needVal_le k
    have h2 := needVal_le v
    have h3 := needPairs_le tl
    have h4 := encVal_pos k
    have h5 := encVal_pos v
    simp only [needPairs, encPairs, List.length_append]
    rcases Nat.le_total (needVal v) (needPairs tl) with h | h
    · rw [Nat.max_eq_right h]
      rcases Nat.le_total (needVal k) (needPairs tl) with h' | h'
      · rw [Nat.max_eq_right h']; omega
      · rw [Nat.max_eq_left h']; omega
    · rw [Nat.max_eq_left h]
      rcases Nat.le_total (needVal k) (needVal v) with h' | h'
      · rw [Nat.max_eq_right h']; omega
      · rw [Nat.max_eq_left h']; omega

end

mutual

/-- Decoding inverts encoding: any well-formed value, with fuel at least
its need, decodes back off the front of the stream. -/
theorem decVal_encVal (v : CborVal) : wfVal v = true → ∀ f, needVal v ≤ f →
    ∀ rest, decVal f (encVal v ++ rest) = some (v, rest) := by
  match v with
  | .vuint n =>
    intro hwf f hf rest
    obtain ⟨f', rfl⟩ : ∃ f', f = f' + 1 := ⟨f - 1, by simp [needVal] at hf; omega⟩
    obtain ⟨b, bs, heq, hdiv, harg⟩ := hdr_parse 0 n rest (by omega)
      (by simpa [wfVal] using hwf)
    simp only [encVal]
    rw [heq]
    simp only [decVal]
    rw [harg, hdiv]
  | .vnint n =>
    intro hwf f hf rest
    obtain ⟨f', rfl⟩ : ∃ f', f = f' + 1 := ⟨f - 1, by simp [needVal] at hf; omega⟩
    obtain ⟨b, bs, heq, hdiv, harg⟩ := hdr_parse 1 n rest (by omega)
      (by simpa [wfVal] using hwf)
    simp only [encVal]
    rw [heq]
    simp only [decVal]
    rw [harg, hdiv]
  | .vsimple n =>
    intro hwf f hf rest
    obtain ⟨f', rfl⟩ : ∃ f', f = f' + 1 := ⟨f - 1, by simp [needVal] at hf; omega⟩
    obtain ⟨b, bs, heq, hdiv, harg⟩ := hdr_parse 7 n rest (by omega)
      (by simpa [wfVal] using hwf)
    simp only [encVal]
    rw [heq]
    simp only [decVal]
    rw [harg, hdiv]
  | .vbytes s =>
    intro hwf f hf rest
    obtain ⟨f', rfl⟩ : ∃ f', f = f' + 1 := ⟨f - 1, by simp [needVal] at hf; omega⟩
    obtain ⟨b, bs, heq, hdiv, harg⟩ := hdr_parse 2 s.length (s ++ rest) (by omega)
      (by simpa [wfVal] using hwf)
    simp only [encVal, List.append_assoc]
    rw [heq]
    simp only [decVal]
    rw [harg, hdiv]
    simp [takeN, List.take_left, List.drop_left]
  | .vtext s =>
    intro hwf f hf rest
    obtain ⟨f', rfl⟩ : ∃ f', f = f' + 1 := ⟨f - 1, by simp [needVal] at hf; omega⟩
    obtain ⟨b, bs, heq, hdiv, harg⟩ := hdr_parse 3 s.length (s ++ rest) (by omega)
      (by simpa [wfVal] using hwf)
    simp only [encVal, List.append_assoc]
    rw [heq]
    simp only [decVal]
    rw [harg, hdiv]
    simp [takeN, List.take_left, List.drop_left]
  | .varr xs =>
    intro hwf f hf rest
    simp only [wfVal, Bool.and_eq_true, decide_eq_true_eq] at hwf
    obtain ⟨f', rfl⟩ : ∃ f', f = f' + 1 := ⟨f - 1, by simp [needVal] at hf; omega⟩
    obtain ⟨b, bs, heq, hdiv, harg⟩ := hdr_parse 4 (seqLen xs) (encSeq xs ++ rest)
      (by omega) hwf.1
    simp only [encVal, List.append_assoc]
    rw [heq]
    simp only [decVal]
    rw [harg, hdiv]
    show Option.map (fun p => (CborVal.varr p.1, p.2))
      (decSeq f' (seqLen xs) (encSeq xs ++ rest)) = some (.varr xs, rest)
    rw [decSeq_encSeq xs hwf.2 f' (by simp [needVal] at hf; omega) rest]
    rfl
  | .vmap xs =>
    intro hwf f hf rest
    simp only [wfVal, Bool.and_eq_true, decide_eq_true_eq] at hwf
    obtain ⟨f', rfl⟩ : ∃ f', f = f' + 1 := ⟨f - 1, by simp [needVal] at hf; omega⟩
    obtain ⟨b, bs, heq, hdiv, harg⟩ := hdr_parse 5 (pairsLen xs) (encPairs xs ++ rest)
      (by omega) hwf.1
    simp only [encVal, List.append_assoc]
    rw [heq]
    simp only [decVal]
    rw [harg, hdiv]
    show Option.map (fun p => (CborVal.vmap p.1, p.2))
      (decPairs f' (pairsLen xs) (encPairs xs ++ rest)) = some (.vmap xs, rest)
    rw [decPairs_encPairs xs hwf.2 f' (by simp [needVal] at hf; omega) rest]
    rfl
  | .vtag t v =>
    intro hwf f hf rest
    simp only [wfVal, Bool.and_eq_true, decide_eq_true_eq] at hwf
    obtain ⟨f', rfl⟩ : ∃ f', f = f' + 1 := ⟨f - 1, by simp [needVal] at hf; omega⟩
    obtain ⟨b, bs, heq, hdiv, harg⟩ := hdr_parse 6 t (encVal v ++ rest)
      (by omega) hwf.1
    simp only [encVal, List.append_assoc]
    rw [heq]
    simp only [decVal]
    rw [harg, hdiv]
    show Option.map (fun p => (CborVal.vtag t p.1, p.2))
      (decVal f' (encVal v ++ rest)) = some (.vtag t v, rest)
    rw [decVal_encVal v hwf.2 f' (by simp [needVal] at hf; omega) rest]
    rfl

theorem decSeq_encSeq (xs : CborSeq) : wfSeq xs = true → ∀ f, needSeq xs ≤ f →
    ∀ rest, decSeq f (seqLen xs) (encSeq xs ++ rest) = some (xs, rest) := by
  match xs with
  | .nil =>
    intro _ f _ rest
    simp [encSeq, seqLen, decSeq]
  | .cons v tl =>
    intro hwf f hf rest
    simp only [wfSeq, Bool.and_eq_true] at hwf
    have hmax : max (needVal v) (needSeq tl) + 1 ≤ f := hf
    obtain ⟨f', rfl⟩ : ∃ f', f = f' + 1 := ⟨f - 1, by omega⟩
    simp only [encSeq, seqLen, List.append_assoc, decSeq]
    rw [decVal_encVal v hwf.1 f' (by have := Nat.le_max_left (needVal v) (needSeq tl); omega)
      (encSeq tl ++ rest)]
    show ((decSeq f' (seqLen tl) (encSeq tl ++ rest)).bind fun p =>
      some (CborSeq.cons v p.1, p.2)) = some (.cons v tl, rest)
    rw [decSeq_encSeq tl hwf.2 f'
      (by have := Nat.le_max_right (needVal v) (needSeq tl); omega) rest]
    rfl

theorem decPairs_encPairs (ps : CborPairs) : wfPairs ps = true → ∀ f, needPairs ps ≤ f →
    ∀ rest, decPairs f (pairsLen ps) (encPairs ps ++ rest) = some (ps, rest) := by
  match ps with
  | .nil =>
    intro _ f _ rest
    simp [encPairs, pairsLen, decPairs]
  | .cons k v tl =>
    intro hwf f hf rest
    simp only [wfPairs, Bool.and_eq_true] at hwf
    have hmax : max (needVal k) (max (needVal v) (needPairs tl)) + 1 ≤ f := hf
    obtain ⟨f', rfl⟩ : ∃ f', f = f' + 1 := ⟨f - 1, by omega⟩
    simp only [encPairs, pairsLen, List.append_assoc, decPairs]
    rw [decVal_encVal k hwf.1.1 f'
      (by have := Nat.le_max_left (needVal k) (max (needVal v) (needPairs tl)); omega)
      (encVal v ++ (encPairs tl ++ rest))]
    show ((decVal f' (encVal v ++ (encPairs tl ++ rest))).bind fun p =>
      (decPairs f' (pairsLen tl) p.2).bind fun q =>
        some (CborPairs.cons k p.1 q.1, q.2)) = some (.cons k v tl, rest)
    rw [decVal_encVal v hwf.1.2 f'
      (by
        have h1 := Nat.le_max_right (needVal k) (max (needVal v) (needPairs tl))
        have h2 := Nat.le_max_left (needVal v) (needPairs tl)
        omega)
      (encPairs tl ++ rest)]
    show ((decPairs f' (pairsLen tl) (encPairs tl ++ rest)).bind fun q =>
      some (CborPairs.cons k v q.1, q.2)) = some (.cons k v tl, rest)
    rw [decPairs_encPairs tl hwf.2 f'
      (by
        have h1 := Nat.le_max_right (needVal k) (max (needVal v) (needPairs tl))
        have h2 := Nat.le_max_right (needVal v) (needPairs tl)
        omega)
      rest]
    rfl

end

/-- Labels survive the trip through their CBOR map key. -/
theorem label_roundtrip (l : CLabel) : labelOfCbor (labelToCbor l) = some l := by
  match l with
  | .lstr s => rfl
  | .lint i =>
    simp only [labelToCbor]
    split_ifs with h
    · simp [labelOfCbor, Int.toNat_of_nonneg h]
    · simp only [labelOfCbor, Option.some.injEq, CLabel.lint.injEq]
      omega

/-- Reading back the marshalled entries of a header map recovers it. -/
theorem hdrOfPairs_hdrPairs (h : HeaderMap) : hdrOfPairs (hdrPairs h) = some h := by
  induction h with
  | nil => rfl
  | cons p t ih =>
    obtain ⟨l, v⟩ := p
    simp only [hdrPairs, hdrOfPairs, label_roundtrip, ih, Option.bind_eq_bind,
      Option.bind_some]
    rfl

/-- The marshalled entries of a header map count its entries. -/
theorem hdrPairs_len (h : HeaderMap) : pairsLen (hdrPairs h) = h.length := by
  induction h with
  | nil => rfl
  | cons p t ih => simp only [hdrPairs, pairsLen, ih, List.length_cons]

/-- A well-formed label marshals to a well-formed CBOR key. -/
theorem wf_labelToCbor (l : CLabel) (hl : wfLabel l = true) :
    wfVal (labelToCbor l) = true := by
  match l with
  | .lstr s => simpa [wfLabel, labelToCbor, wfVal] using hl
  | .lint i =>
    simp only [wfLabel, Bool.and_eq_true, decide_eq_true_eq] at hl
    simp only [labelToCbor]
    split_ifs with h
    · simp only [wfVal, decide_eq_true_eq]
      omega
    · simp only [wfVal, decide_eq_true_eq]
      omega

/-- A well-formed header map marshals to a well-formed CBOR map. -/
theorem wf_hdrPairs (h : HeaderMap) (hwf : wfHeaderMap h = true) :
    wfVal (.vmap (hdrPairs h)) = true := by
  simp only [wfHeaderMap, Bool.and_eq_true, decide_eq_true_eq, List.all_eq_true] at hwf
  simp only [wfVal, Bool.and_eq_true, decide_eq_true_eq]
  refine ⟨by rw [hdrPairs_len]; exact hwf.1, ?_⟩
  obtain ⟨-, hall⟩ := hwf
  induction h with
  | nil => rfl
  | cons p t ih =>
    obtain ⟨l, v⟩ := p
    have hp := hall (l, v) (List.mem_cons_self _ _)
    simp only [Bool.and_eq_true] at hp
    simp only [hdrPairs, wfPairs, Bool.and_eq_true]
    exact ⟨⟨wf_labelToCbor l hp.1, hp.2⟩,
      ih (fun x hx => hall x (List.mem_cons_of_mem _ hx))⟩

/-- Decoding the protected byte-string content of a marshalled
non-empty map recovers the map. -/
theorem decProtected_enc (x : CLabel × CborVal) (pr : List (CLabel × CborVal))
    (hp : wfHeaderMap (x :: pr) = true)
    (_hplen : (encVal (.vmap (hdrPairs (x :: pr)))).length < 2 ^ 64) :
    decProtected (.vbytes (encVal (.vmap (hdrPairs (x :: pr))))) = some (x :: pr) := by
  have hwf := wf_hdrPairs (x :: pr) hp
  have hdec : decVal (2 * (encVal (.vmap (hdrPairs (x :: pr)))).length + 2)
      (encVal (.vmap (hdrPairs (x :: pr)))) =
      some (.vmap (hdrPairs (x :: pr)), []) := by
    have h := decVal_encVal (.vmap (hdrPairs (x :: pr))) hwf
      (2 * (encVal (.vmap (hdrPairs (x :: pr)))).length + 2)
      (by have := needVal_le (.vmap (hdrPairs (x :: pr))); omega) []
    simpa using h
  match henc : encVal (.vmap (hdrPairs (x :: pr))), encVal_ne_nil (.vmap (hdrPairs (x :: pr))) with
  | pb :: ptl, _ =>
    simp only [decProtected]
    rw [← henc, hdec]
    exact hdrOfPairs_hdrPairs (x :: pr)

/-- Claim C7: `FlatMarshalCBOR` writes the protected map as a byte
string (empty for the empty map, else holding the serialized map)
followed by the unprotected map as a plain map, and `FlatUnmarshalCBOR`
recovers both maps exactly, leaving the rest of the stream. -/
theorem claim_C7 (prot unprot : HeaderMap) (rest : List Nat)
    (hp : wfHeaderMap prot = true) (hu : wfHeaderMap unprot = true)
    (hplen : (encVal (.vmap (hdrPairs prot))).length < 2 ^ 64) :
    flatUnmarshalHdr (flatMarshalHdr prot unprot ++ rest) = some ((prot, unprot), rest) := by
  have hU := wf_hdrPairs unprot hu
  have h3 : decVal (2 * (encVal (.vmap (hdrPairs unprot)) ++ rest).length + 2)
      (encVal (.vmap (hdrPairs unprot)) ++ rest) =
      some (.vmap (hdrPairs unprot), rest) :=
    decVal_encVal _ hU _
      (by
        have := needVal_le (.vmap (hdrPairs unprot))
        simp only [List.length_append]
        omega) rest
  have h4 : decUnprotected (.vmap (hdrPairs unprot)) = some unprot := by
    simp only [decUnprotected]
    exact hdrOfPairs_hdrPairs unprot
  cases prot with
  | nil =>
    have h1 : decVal
        (2 * ((encVal (.vbytes []) ++ (encVal (.vmap (hdrPairs unprot)) ++ rest)).length) + 2)
        (encVal (.vbytes []) ++ (encVal (.vmap (hdrPairs unprot)) ++ rest)) =
        some (.vbytes [], encVal (.vmap (hdrPairs unprot)) ++ rest) :=
      decVal_encVal (.vbytes []) rfl _ (by simp [needVal]) _
    simp only [flatMarshalHdr, List.append_assoc, flatUnmarshalHdr, h1]
    simp only [decProtected, h3, h4]
  | cons x pr =>
    have hP : wfVal (.vbytes (encVal (.vmap (hdrPairs (x :: pr))))) = true := by
      simpa [wfVal] using hplen
    have h1 : decVal
        (2 * ((encVal (.vbytes (encVal (.vmap (hdrPairs (x :: pr))))) ++
          (encVal (.vmap (hdrPairs unprot)) ++ rest)).length) + 2)
        (encVal (.vbytes (encVal (.vmap (hdrPairs (x :: pr))))) ++
          (encVal (.vmap (hdrPairs unprot)) ++ rest)) =
        some (.vbytes (encVal (.vmap (hdrPairs (x :: pr)))),
          encVal (.vmap (hdrPairs unprot)) ++ rest) :=
      decVal_encVal _ hP _ (by simp [needVal]) _
    have h2 := decProtected_enc x pr hp hplen
    simp only [flatMarshalHdr, List.append_assoc, flatUnmarshalHdr, h1, h2, h3, h4]

/-- Claim C7 witness: a one-entry protected and one-entry unprotected
map with an int and a string label round-trip ahead of a nonempty
tail. -/
theorem claim_C7_wit :
    flatUnmarshalHdr (flatMarshalHdr [(.lint 1, .vuint 5)]
      [(.lstr [97], .vbytes [1, 2])] ++ [9]) =
      some (([(.lint 1, .vuint 5)], [(.lstr [97], .vbytes [1, 2])]), [9]) :=
  claim_C7 [(.lint 1, .vuint 5)] [(.lstr [97], .vbytes [1, 2])] [9]
    (by decide) (by decide) (by decide)

end FdoSpec
